import Mathlib

/-!
Verification of the `PanelLayout` class (src/layout.ts of phosphor-panel).

The layout owns an ordered list of child widgets (`_children`) and keeps the
physical child-node order of the parent widget's DOM node synchronized with
it.  We embed the class as a pure state-transition system:

* a widget (and its DOM node) is identified by a natural number;
* `PanelLayout` is a record holding the `_children` array, the physical node
  order of `this.parent.node`, and the two booleans the code consults
  (`this.parent` truthiness and `this.parent.isAttached`);
* every method returns the new state together with a trace of events: hook
  invocations (`attachChild` / `moveChild` / `detachChild`), the
  `child.parent = this.parent` assignment, and the lifecycle messages
  (`after-attach` / `before-detach`) delivered via `sendMessage`.
-/

/-- Events observable during an operation: the three protected hook
invocations, the parent assignment, and the two lifecycle messages. -/
inductive Event where
  | setParent (child : Nat)
  | attach (index : Nat) (child : Nat)
  | move (fromIndex : Nat) (toIndex : Nat) (child : Nat)
  | detach (index : Nat) (child : Nat)
  | afterAttach (child : Nat)
  | beforeDetach (child : Nat)
  deriving DecidableEq

/-- Is the event a lifecycle message (`sendMessage` of after-attach or
before-detach)? -/
def Event.isMsg : Event → Bool
  | .afterAttach _ => true
  | .beforeDetach _ => true
  | _ => false

/-- Is the event an invocation of the `attachChild` hook? -/
def Event.isAttachHook : Event → Bool
  | .attach _ _ => true
  | _ => false

/-- Is the event an invocation of the `detachChild` hook? -/
def Event.isDetachHook : Event → Bool
  | .detach _ _ => true
  | _ => false

/-- Is the event an invocation of the `moveChild` hook? -/
def Event.isMoveHook : Event → Bool
  | .move _ _ _ => true
  | _ => false

/-- The lifecycle messages contained in a trace, in order. -/
def msgEvents (tr : List Event) : List Event :=
  tr.filter Event.isMsg

/-- State of a `PanelLayout`: the `_children` array, the physical child-node
order of `this.parent.node`, whether `this.parent` is non-null, and whether
`this.parent.isAttached` holds. -/
structure PanelLayout where
  children : List Nat
  nodes : List Nat
  hasParent : Bool
  isAttached : Bool
  deriving DecidableEq

/-- JavaScript `Array.prototype.indexOf`: index of the first occurrence, or
`none` for `-1`. -/
def idxOf (c : Nat) : List Nat → Option Nat
  | [] => none
  | x :: xs => if x = c then some 0 else (idxOf c xs).map (· + 1)

/-- `arrays.insert` from phosphor-arrays at an already-clamped index
`j ≤ l.length`: insert `x` at position `j`. -/
def insertAt (l : List Nat) (j : Nat) (x : Nat) : List Nat :=
  match j, l with
  | 0, l => x :: l
  | _ + 1, [] => [x]
  | j + 1, y :: ys => y :: insertAt ys j x

/-- Removal of the element at position `i` (the splice performed by
`arrays.remove` / the first half of `arrays.move`). -/
def removeAt (l : List Nat) (i : Nat) : List Nat :=
  match l, i with
  | [], _ => []
  | _ :: xs, 0 => xs
  | x :: xs, i + 1 => x :: removeAt xs i

/-- `arrays.move` from phosphor-arrays: remove the element at `i` and
re-insert it at `j`. Out-of-range `i` leaves the array unchanged. -/
def moveEl (l : List Nat) (i j : Nat) : List Nat :=
  match l.get? i with
  | none => l
  | some x => insertAt (removeAt l i) j x

/-- Insert `x` immediately before the first occurrence of `r` (appending when
`r` is absent): the core of DOM `insertBefore` with a non-null reference. -/
def insBefore (l : List Nat) (x r : Nat) : List Nat :=
  match l with
  | [] => [x]
  | y :: ys => if y = r then x :: y :: ys else y :: insBefore ys x r

/-- DOM `parent.node.insertBefore(x, ref)`: first remove `x` from the node
list if present (the DOM re-parents), then insert before `ref`, or append
when `ref` is null. -/
def insertBeforeRef (l : List Nat) (x : Nat) (ref : Option Nat) : List Nat :=
  match ref with
  | none => l.filter (fun y => y != x) ++ [x]
  | some r => insBefore (l.filter (fun y => y != x)) x r

/-- JavaScript `ToInt32` (`index | 0` on an integral value): wrap into
`[-2^31, 2^31)`. -/
def toInt32 (i : Int) : Int :=
  (i + 2 ^ 31) % 2 ^ 32 - 2 ^ 31

/-- Truncation of a rational toward zero, the first half of `ToInt32` on a
fractional JavaScript number. -/
def jsTrunc (q : Rat) : Int :=
  let m : Nat := q.num.natAbs / q.den
  if 0 ≤ q.num then (m : Int) else -(m : Int)

/-- The index computation of `insertChild`:
`Math.max(0, Math.min(index | 0, n))`. -/
def clampIndex (index : Int) (n : Nat) : Nat :=
  (max 0 (min (toInt32 index) (n : Int))).toNat

/-- `childCount()`: the length of `_children`. -/
def childCount (st : PanelLayout) : Nat :=
  st.children.length

/-- `childAt(index)`: `this._children[index]`, `undefined` (= `none`) when the
index is out of range. -/
def childAt (st : PanelLayout) (index : Int) : Option Nat :=
  if 0 ≤ index then st.children.get? index.toNat else none

/-- `attachChild(index, child)` (source lines 140-144): look up the widget at
`index + 1`, insert `child`'s node before that widget's node (append when
there is none), and send `after-attach` when the parent is attached. Called
with the state in which `child` is already at `index` of `_children`. -/
def attachChild (st : PanelLayout) (index : Nat) (child : Nat) :
    PanelLayout × List Event :=
  let ref := st.children.get? (index + 1)
  let st' := { st with nodes := insertBeforeRef st.nodes child ref }
  let msgs := if st.isAttached then [Event.afterAttach child] else []
  (st', Event.attach index child :: msgs)

/-- `moveChild(fromIndex, toIndex, child)` (source lines 169-174): send
`before-detach` when attached, relocate the node before the node of the
widget now at `toIndex + 1`, then send `after-attach` when attached. -/
def moveChild (st : PanelLayout) (fromIndex toIndex : Nat) (child : Nat) :
    PanelLayout × List Event :=
  let ref := st.children.get? (toIndex + 1)
  let pre := if st.isAttached then [Event.beforeDetach child] else []
  let st' := { st with nodes := insertBeforeRef st.nodes child ref }
  let post := if st.isAttached then [Event.afterAttach child] else []
  (st', Event.move fromIndex toIndex child :: (pre ++ post))

/-- `detachChild(index, child)` (source lines 196-199): send `before-detach`
when attached, then remove the child's node from the parent's node. -/
def detachChild (st : PanelLayout) (index : Nat) (child : Nat) :
    PanelLayout × List Event :=
  let pre := if st.isAttached then [Event.beforeDetach child] else []
  let st' := { st with nodes := st.nodes.filter (fun y => y != child) }
  (st', Event.detach index child :: pre)

/-- `insertChild(index, child)` (source lines 87-101): set the child's parent,
clamp the index, then either move an existing child (decrementing a target
equal to `count`, no-op when the target is the current position) or insert a
new one; the `moveChild` / `attachChild` hook fires only when `this.parent`
is non-null. -/
def insertChild (st : PanelLayout) (index : Int) (child : Nat) :
    PanelLayout × List Event :=
  let n := st.children.length
  let j := clampIndex index n
  match idxOf child st.children with
  | some i =>
    let t := if j = n then j - 1 else j
    if i = t then (st, [Event.setParent child])
    else
      let st1 := { st with children := moveEl st.children i t }
      if st.hasParent then
        let p := moveChild st1 i t child
        (p.1, Event.setParent child :: p.2)
      else (st1, [Event.setParent child])
  | none =>
    let st1 := { st with children := insertAt st.children j child }
    if st.hasParent then
      let p := attachChild st1 j child
      (p.1, Event.setParent child :: p.2)
    else (st1, [Event.setParent child])

/-- `insertChild` as reached from JavaScript with a possibly fractional
number: `index | 0` first truncates toward zero, then wraps to 32 bits. -/
def insertChildAt (st : PanelLayout) (q : Rat) (child : Nat) :
    PanelLayout × List Event :=
  insertChild st (jsTrunc q) child

/-- `addChild(child)`: `insertChild(childCount(), child)`. -/
def addChild (st : PanelLayout) (child : Nat) : PanelLayout × List Event :=
  insertChild st (childCount st : Int) child

/-- `onChildRemoved(msg)` (source lines 209-212): remove the child from
`_children` (`arrays.remove`, first occurrence) and, when it was present,
invoke `detachChild` with its former index. -/
def onChildRemoved (st : PanelLayout) (child : Nat) :
    PanelLayout × List Event :=
  match idxOf child st.children with
  | none => (st, [])
  | some i =>
    let st1 := { st with children := removeAt st.children i }
    detachChild st1 i child

/-- One iteration of the `dispose` loop: `this._children.pop()` followed by
the popped child's `.dispose()`. When `reenter` is set the child's disposal
delivers the `child-removed` notification back to this layout. -/
def disposeStep (st : PanelLayout) (last : Nat) (reenter : Bool) :
    PanelLayout × List Event :=
  let st1 : PanelLayout := { st with children := st.children.dropLast }
  if reenter then onChildRemoved st1 last else (st1, [])

/-- The `dispose` loop with explicit fuel: while `_children` is nonempty, pop
the last child and dispose it. -/
def disposeFuel : Nat → PanelLayout → Bool → PanelLayout × (List Nat × List Event)
  | 0, st, _ => (st, ([], []))
  | fuel + 1, st, reenter =>
    if h : st.children = [] then (st, ([], []))
    else
      let last := st.children.getLast h
      let p := disposeStep st last reenter
      let rest := disposeFuel fuel p.1 reenter
      (rest.1, (last :: rest.2.1, p.2 ++ rest.2.2))

/-- `dispose()` (source lines 38-43): while `_children` is nonempty, pop the
last child and dispose it; returns the final state, the popped children in
disposal order, and the events produced by notifications a child's disposal
re-enters the layout with (when `reenter` is set). Since every iteration
strictly shrinks `_children`, fuel `childCount` is exact. -/
def dispose (st : PanelLayout) (reenter : Bool) :
    PanelLayout × (List Nat × List Event) :=
  disposeFuel st.children.length st reenter

/-- States reachable from a fresh layout (empty `_children`, empty node list)
by the public operations: `insertChild` (which subsumes `addChild`), the
`child-removed` notification, and `dispose`. -/
inductive Reachable : PanelLayout → Prop where
  | init (hp ia : Bool) : Reachable ⟨[], [], hp, ia⟩
  | insert (st : PanelLayout) (index : Int) (c : Nat) :
      Reachable st → Reachable (insertChild st index c).1
  | remove (st : PanelLayout) (c : Nat) :
      Reachable st → Reachable (onChildRemoved st c).1
  | dispose (st : PanelLayout) (re : Bool) :
      Reachable st → Reachable (dispose st re).1

example : insertChild ⟨[], [], true, true⟩ 0 5 =
    (⟨[5], [5], true, true⟩, [Event.setParent 5, Event.attach 0 5, Event.afterAttach 5]) := by
  decide

example : (addChild (addChild (addChild ⟨[], [], true, true⟩ 1).1 2).1 3).1.nodes
    = [1, 2, 3] := by decide

example : (insertChild ⟨[5, 6, 7], [5, 6, 7], true, true⟩ 0 7).1.children = [7, 5, 6] := by
  decide

example : (insertChild ⟨[5], [5], true, true⟩ (2 ^ 31) 7).1.children = [7, 5] := by
  decide

example : dispose ⟨[1, 2, 3], [1, 2, 3], true, true⟩ true
    = (⟨[], [1, 2, 3], true, true⟩, ([3, 2, 1], [])) := by decide

/-! ### Basic lemmas about the list primitives -/

theorem idxOf_eq_none_iff (c : Nat) (l : List Nat) : idxOf c l = none ↔ c ∉ l := by
  induction l with
  | nil => simp [idxOf]
  | cons x xs ih =>
    by_cases hx : x = c
    · simp [idxOf, hx]
    · simp only [idxOf, if_neg hx, Option.map_eq_none', ih, List.mem_cons]
      constructor
      · intro h hc
        rcases hc with rfl | hc
        · exact hx rfl
        · exact h hc
      · intro h hc
        exact h (Or.inr hc)

theorem idxOf_get? (c : Nat) (l : List Nat) (i : Nat) (h : idxOf c l = some i) :
    l.get? i = some c := by
  induction l generalizing i with
  | nil => simp [idxOf] at h
  | cons x xs ih =>
    by_cases hx : x = c
    · simp only [idxOf, if_pos hx, Option.some.injEq] at h
      subst hx
      subst h
      rfl
    · simp only [idxOf, if_neg hx, Option.map_eq_some'] at h
      obtain ⟨i', hi', rfl⟩ := h
      simpa using ih i' hi'

theorem idxOf_lt_length (c : Nat) (l : List Nat) (i : Nat) (h : idxOf c l = some i) :
    i < l.length := by
  have hg := idxOf_get? c l i h
  exact List.get?_eq_some.mp hg |>.1

theorem removeAt_length_le (l : List Nat) (i : Nat) :
    (removeAt l i).length ≤ l.length := by
  induction l generalizing i with
  | nil => simp [removeAt]
  | cons x xs ih =>
    cases i with
    | zero => simp [removeAt]
    | succ i => simpa [removeAt] using Nat.succ_le_succ (ih i)

theorem onChildRemoved_length_le (st : PanelLayout) (c : Nat) :
    ((onChildRemoved st c).1).children.length ≤ st.children.length := by
  unfold onChildRemoved
  cases h : idxOf c st.children with
  | none => simp
  | some i => simpa [detachChild] using removeAt_length_le st.children i

theorem disposeStep_length_lt (st : PanelLayout) (last : Nat) (re : Bool)
    (h : st.children ≠ []) :
    ((disposeStep st last re).1).children.length < st.children.length := by
  have hlen : st.children.dropLast.length < st.children.length := by
    rw [List.length_dropLast]
    exact Nat.sub_lt (List.length_pos.mpr h) Nat.one_pos
  unfold disposeStep
  by_cases hre : re
  · simp only [hre, if_pos]
    exact Nat.lt_of_le_of_lt
      (onChildRemoved_length_le { st with children := st.children.dropLast } last) hlen
  · simpa [hre] using hlen

theorem insertAt_perm (c : Nat) (l : List Nat) : ∀ j : Nat, j ≤ l.length →
    List.Perm (insertAt l j c) (c :: l) := by
  induction l with
  | nil =>
    intro j hj
    have : j = 0 := Nat.le_zero.mp hj
    subst this
    exact List.Perm.refl _
  | cons y ys ih =>
    intro j hj
    cases j with
    | zero => exact List.Perm.refl _
    | succ j =>
      have h := ih j (Nat.le_of_succ_le_succ (by simpa using hj))
      have h2 : List.Perm (y :: insertAt ys j c) (y :: c :: ys) := h.cons y
      have h3 : List.Perm (y :: c :: ys) (c :: y :: ys) := List.Perm.swap c y ys
      exact h2.trans h3

theorem removeAt_perm (x : Nat) (l : List Nat) : ∀ i : Nat, l.get? i = some x →
    List.Perm l (x :: removeAt l i) := by
  induction l with
  | nil => intro i h; simp at h
  | cons y ys ih =>
    intro i h
    cases i with
    | zero =>
      simp only [List.get?_cons_zero, Option.some.injEq] at h
      subst h
      exact List.Perm.refl _
    | succ i =>
      have h' : ys.get? i = some x := by simpa using h
      have h2 : List.Perm (y :: ys) (y :: (x :: removeAt ys i)) := (ih i h').cons y
      have h3 : List.Perm (y :: x :: removeAt ys i) (x :: y :: removeAt ys i) :=
        List.Perm.swap x y _
      exact h2.trans h3

theorem length_insertAt (c : Nat) (l : List Nat) (j : Nat) (hj : j ≤ l.length) :
    (insertAt l j c).length = l.length + 1 := by
  simpa using (insertAt_perm c l j hj).length_eq

theorem length_removeAt (x : Nat) (l : List Nat) (i : Nat) (h : l.get? i = some x) :
    (removeAt l i).length + 1 = l.length := by
  simpa using (removeAt_perm x l i h).length_eq.symm

theorem mem_of_mem_removeAt (a : Nat) (l : List Nat) (i : Nat)
    (h : a ∈ removeAt l i) : a ∈ l := by
  induction l generalizing i with
  | nil => simp [removeAt] at h
  | cons y ys ih =>
    cases i with
    | zero => exact List.mem_cons_of_mem y h
    | succ i =>
      rcases List.mem_cons.mp h with rfl | h'
      · exact List.mem_cons_self _ _
      · exact List.mem_cons_of_mem y (ih i h')

theorem not_mem_removeAt (c : Nat) (l : List Nat) (i : Nat) (hnd : l.Nodup)
    (h : l.get? i = some c) : c ∉ removeAt l i := by
  have hp := removeAt_perm c l i h
  exact (List.nodup_cons.mp (hp.nodup hnd)).1

theorem nodup_removeAt (l : List Nat) (i : Nat) (hnd : l.Nodup) :
    (removeAt l i).Nodup := by
  induction l generalizing i with
  | nil => simp [removeAt]
  | cons y ys ih =>
    rcases List.nodup_cons.mp hnd with ⟨hy, hys⟩
    cases i with
    | zero => exact hys
    | succ i =>
      exact List.nodup_cons.mpr
        ⟨fun hm => hy (mem_of_mem_removeAt y ys i hm), ih i hys⟩

theorem nodup_insertAt (c : Nat) (l : List Nat) (j : Nat) (hc : c ∉ l)
    (hj : j ≤ l.length) (hnd : l.Nodup) : (insertAt l j c).Nodup := by
  have hp := insertAt_perm c l j hj
  exact hp.symm.nodup (List.nodup_cons.mpr ⟨hc, hnd⟩)

theorem idxOf_insertAt (c : Nat) (l : List Nat) : ∀ j : Nat, c ∉ l → j ≤ l.length →
    idxOf c (insertAt l j c) = some j := by
  induction l with
  | nil =>
    intro j _ hj
    have : j = 0 := Nat.le_zero.mp hj
    subst this
    simp [insertAt, idxOf]
  | cons y ys ih =>
    intro j hc hj
    cases j with
    | zero => simp [insertAt, idxOf]
    | succ j =>
      have hy : y ≠ c := fun h => hc (h ▸ List.mem_cons_self y ys)
      have hc' : c ∉ ys := fun h => hc (List.mem_cons_of_mem y h)
      have h := ih j hc' (Nat.le_of_succ_le_succ (by simpa using hj))
      simp [insertAt, idxOf, hy, h]

theorem get?_insertAt_succ (c : Nat) (l : List Nat) : ∀ j : Nat, j ≤ l.length →
    (insertAt l j c).get? (j + 1) = l.get? j := by
  induction l with
  | nil =>
    intro j hj
    have : j = 0 := Nat.le_zero.mp hj
    subst this
    rfl
  | cons y ys ih =>
    intro j hj
    cases j with
    | zero => rfl
    | succ j =>
      have h := ih j (Nat.le_of_succ_le_succ (by simpa using hj))
      simpa [insertAt] using h

theorem insertAt_length_self (c : Nat) (l : List Nat) :
    insertAt l l.length c = l ++ [c] := by
  induction l with
  | nil => rfl
  | cons y ys ih => simpa [insertAt] using ih

theorem filter_bne_of_not_mem (c : Nat) (l : List Nat) (hc : c ∉ l) :
    l.filter (fun y => y != c) = l := by
  apply List.filter_eq_self.mpr
  intro a ha
  have hne : a ≠ c := fun e => hc (e ▸ ha)
  simpa [bne_iff_ne] using hne

theorem filter_bne_eq_removeAt (c : Nat) (l : List Nat) : ∀ i : Nat, l.Nodup →
    idxOf c l = some i → l.filter (fun y => y != c) = removeAt l i := by
  induction l with
  | nil => intro i _ h; simp [idxOf] at h
  | cons y ys ih =>
    intro i hnd h
    rcases List.nodup_cons.mp hnd with ⟨hy, hys⟩
    by_cases hyc : y = c
    · subst hyc
      have h0 : idxOf y (y :: ys) = some 0 := by simp [idxOf]
      rw [h0, Option.some.injEq] at h
      subst h
      simpa [List.filter, removeAt] using filter_bne_of_not_mem y ys hy
    · simp only [idxOf, if_neg hyc, Option.map_eq_some'] at h
      obtain ⟨i', hi', rfl⟩ := h
      have hbne : (y != c) = true := by simpa [bne_iff_ne] using hyc
      simp [List.filter, hbne, removeAt, ih i' hys hi']

theorem insBefore_of_get? (c : Nat) (l : List Nat) : ∀ (j : Nat) (r : Nat), l.Nodup →
    l.get? j = some r → insBefore l c r = insertAt l j c := by
  induction l with
  | nil => intro j r _ h; simp at h
  | cons y ys ih =>
    intro j r hnd h
    cases j with
    | zero =>
      simp only [List.get?_cons_zero, Option.some.injEq] at h
      subst h
      simp [insBefore, insertAt]
    | succ j =>
      have h' : ys.get? j = some r := by simpa using h
      have hr : r ∈ ys := List.get?_mem h'
      have hy : y ≠ r := fun e => (List.nodup_cons.mp hnd).1 (e ▸ hr)
      simp [insBefore, insertAt, hy, ih j r (List.nodup_cons.mp hnd).2 h']

theorem insertBeforeRef_eq (l m : List Nat) (c t : Nat)
    (hf : l.filter (fun y => y != c) = m) (hnd : m.Nodup) (ht : t ≤ m.length) :
    insertBeforeRef l c (m.get? t) = insertAt m t c := by
  cases h : m.get? t with
  | none =>
    have hlen : m.length ≤ t := List.get?_eq_none.mp h
    have : t = m.length := Nat.le_antisymm ht hlen
    subst this
    simp [insertBeforeRef, hf, insertAt_length_self]
  | some r =>
    simpa [insertBeforeRef, hf] using insBefore_of_get? c m t r hnd h

theorem clampIndex_le (index : Int) (n : Nat) : clampIndex index n ≤ n := by
  unfold clampIndex
  have h1 : max 0 (min (toInt32 index) (n : Int)) ≤ (n : Int) := by
    apply max_le
    · exact_mod_cast Nat.zero_le n
    · exact min_le_right _ _
  exact Int.toNat_le.mpr h1

theorem toInt32_eq_self (i : Int) (h1 : -(2 ^ 31) ≤ i) (h2 : i < 2 ^ 31) :
    toInt32 i = i := by
  unfold toInt32
  have hpow : (2 : Int) ^ 32 = 2 ^ 31 + 2 ^ 31 := by norm_num
  have hlo : 0 ≤ i + 2 ^ 31 := by linarith
  have hhi : i + 2 ^ 31 < 2 ^ 32 := by linarith
  rw [Int.emod_eq_of_lt hlo hhi]
  ring

theorem clampIndex_eq_of_small (index : Int) (n : Nat) (h1 : -(2 ^ 31) ≤ index)
    (h2 : index < 2 ^ 31) :
    (clampIndex index n : Int) = min (max 0 index) (n : Int) := by
  unfold clampIndex
  rw [toInt32_eq_self index h1 h2, max_min_distrib_left,
    max_eq_right (show (0 : Int) ≤ (n : Int) by exact_mod_cast Nat.zero_le n)]
  exact Int.toNat_of_nonneg
    (le_min (le_max_left _ _) (by exact_mod_cast Nat.zero_le n))

theorem onChildRemoved_of_not_mem (st : PanelLayout) (c : Nat)
    (hc : c ∉ st.children) : onChildRemoved st c = (st, []) := by
  unfold onChildRemoved
  rw [(idxOf_eq_none_iff c st.children).mpr hc]

theorem moveEl_eq (l : List Nat) (i j c : Nat) (h : l.get? i = some c) :
    moveEl l i j = insertAt (removeAt l i) j c := by
  unfold moveEl
  rw [h]

theorem insertChild_of_mem (st : PanelLayout) (index : Int) (c i : Nat)
    (hi : idxOf c st.children = some i) :
    insertChild st index c =
      (let n := st.children.length
       let j := clampIndex index n
       let t := if j = n then j - 1 else j
       if i = t then (st, [Event.setParent c])
       else
         let st1 := { st with children := moveEl st.children i t }
         if st.hasParent then
           let p := moveChild st1 i t c
           (p.1, Event.setParent c :: p.2)
         else (st1, [Event.setParent c])) := by
  unfold insertChild
  rw [hi]

theorem insertChild_of_not_mem (st : PanelLayout) (index : Int) (c : Nat)
    (hc : idxOf c st.children = none) :
    insertChild st index c =
      (let j := clampIndex index st.children.length
       let st1 := { st with children := insertAt st.children j c }
       if st.hasParent then
         let p := attachChild st1 j c
         (p.1, Event.setParent c :: p.2)
       else (st1, [Event.setParent c])) := by
  unfold insertChild
  rw [hc]

/-! ### Claim theorems -/


theorem mem_moveChild_trace (st : PanelLayout) (f t c : Nat) (e : Event)
    (he : e ∈ (moveChild st f t c).2) :
    e = Event.move f t c ∨ e = Event.beforeDetach c ∨ e = Event.afterAttach c := by
  by_cases hA : st.isAttached <;> simp [moveChild, hA] at he <;> tauto

theorem mem_attachChild_trace (st : PanelLayout) (i c : Nat) (e : Event)
    (he : e ∈ (attachChild st i c).2) :
    e = Event.attach i c ∨ e = Event.afterAttach c := by
  by_cases hA : st.isAttached <;> simp [attachChild, hA] at he <;> tauto

/-- Claim C1: for every layout state and every index, `insertChild(index, c)`
with `c` already present at position `i` first clamps the (32-bit converted)
index into `[0, count]`, giving `j`; if `j` equals `count` it is decremented
by one, giving target `t`; if `t` equals `i` the operation is a no-op (state
unchanged, no attach/detach/move hook invoked and no lifecycle message
fired); otherwise the child is repositioned from `i` to `t` within the
sequence, and the `moveChild` hook — never `attachChild` or `detachChild` —
is invoked exactly when the layout has a parent container. -/
theorem insertChild_existing_spec (st : PanelLayout) (index : Int) (c i j t : Nat)
    (hi : idxOf c st.children = some i)
    (hjdef : j = clampIndex index st.children.length)
    (htdef : t = if j = st.children.length then j - 1 else j) :
    j ≤ st.children.length ∧
    (i = t → insertChild st index c = (st, [Event.setParent c])) ∧
    (i ≠ t →
      (insertChild st index c).1.children = moveEl st.children i t ∧
      ((Event.move i t c ∈ (insertChild st index c).2) ↔ st.hasParent = true) ∧
      (st.children.Nodup →
        idxOf c (insertChild st index c).1.children = some t) ∧
      (∀ e ∈ (insertChild st index c).2,
        e.isAttachHook = false ∧ e.isDetachHook = false)) := by
  subst hjdef
  subst htdef
  have hkey := insertChild_of_mem st index c i hi
  have hget : st.children.get? i = some c := idxOf_get? c st.children i hi
  have hiltn : i < st.children.length := idxOf_lt_length c st.children i hi
  refine ⟨clampIndex_le index st.children.length, ?_, ?_⟩
  · intro hit
    rw [hkey]
    dsimp only
    rw [if_pos hit]
  · intro hit
    have hjle : clampIndex index st.children.length ≤ st.children.length :=
      clampIndex_le index st.children.length
    have htle : (if clampIndex index st.children.length = st.children.length then
        clampIndex index st.children.length - 1
      else clampIndex index st.children.length) ≤ st.children.length - 1 := by
      split_ifs with hjn <;> omega
    have hrlen : (removeAt st.children i).length = st.children.length - 1 := by
      have := length_removeAt c st.children i hget
      omega
    have hme := moveEl_eq st.children i
      (if clampIndex index st.children.length = st.children.length then
        clampIndex index st.children.length - 1
      else clampIndex index st.children.length) c hget
    rw [hkey]
    dsimp only
    rw [if_neg hit]
    by_cases hp : st.hasParent = true
    · rw [if_pos hp]
      refine ⟨rfl, ?_, ?_, ?_⟩
      · simp [moveChild, hp]
      · intro hnd
        dsimp only [moveChild]
        rw [hme]
        exact idxOf_insertAt c (removeAt st.children i) _
          (not_mem_removeAt c st.children i hnd hget)
          (by rw [hrlen]; exact htle)
      · intro e he
        rcases List.mem_cons.mp he with rfl | he2
        · exact ⟨rfl, rfl⟩
        · rcases mem_moveChild_trace _ i _ c e he2 with rfl | rfl | rfl <;>
            exact ⟨rfl, rfl⟩
    · rw [if_neg hp]
      refine ⟨rfl, ?_, ?_, ?_⟩
      · simp [hp]
      · intro hnd
        dsimp only
        rw [hme]
        exact idxOf_insertAt c (removeAt st.children i) _
          (not_mem_removeAt c st.children i hnd hget)
          (by rw [hrlen]; exact htle)
      · intro e he
        rcases List.mem_singleton.mp he with rfl
        exact ⟨rfl, rfl⟩

theorem onChildRemoved_of_mem (st : PanelLayout) (c i : Nat)
    (hi : idxOf c st.children = some i) :
    onChildRemoved st c =
      detachChild { st with children := removeAt st.children i } i c := by
  unfold onChildRemoved
  rw [hi]

theorem insertAt_zero (l : List Nat) (c : Nat) : insertAt l 0 c = c :: l := by
  cases l <;> rfl

theorem clampIndex_two_pow_31 (n : Nat) : clampIndex (2 ^ 31) n = 0 := by
  unfold clampIndex
  have h32 : toInt32 (2 ^ 31) = -(2 ^ 31) := by decide
  rw [h32]
  omega

theorem nodup_moveEl (l : List Nat) (i t c : Nat) (hget : l.get? i = some c)
    (ht : t ≤ (removeAt l i).length) (hnd : l.Nodup) : (moveEl l i t).Nodup := by
  rw [moveEl_eq l i t c hget]
  have h1 := insertAt_perm c (removeAt l i) t ht
  have h2 := removeAt_perm c l i hget
  exact h1.symm.nodup (h2.nodup hnd)

theorem insertChild_nodup (st : PanelLayout) (index : Int) (c : Nat)
    (hnd : st.children.Nodup) : (insertChild st index c).1.children.Nodup := by
  cases h : idxOf c st.children with
  | none =>
    have hc : c ∉ st.children := (idxOf_eq_none_iff c st.children).mp h
    rw [insertChild_of_not_mem st index c h]
    dsimp only
    by_cases hp : st.hasParent = true
    · rw [if_pos hp]
      exact nodup_insertAt c _ _ hc (clampIndex_le _ _) hnd
    · rw [if_neg hp]
      exact nodup_insertAt c _ _ hc (clampIndex_le _ _) hnd
  | some i =>
    have hget : st.children.get? i = some c := idxOf_get? c st.children i h
    have hiltn : i < st.children.length := idxOf_lt_length c st.children i h
    have hrlen : (removeAt st.children i).length = st.children.length - 1 := by
      have := length_removeAt c st.children i hget
      omega
    have hjle := clampIndex_le index st.children.length
    have hmv : (moveEl st.children i
        (if clampIndex index st.children.length = st.children.length then
          clampIndex index st.children.length - 1
        else clampIndex index st.children.length)).Nodup := by
      refine nodup_moveEl st.children i _ c hget ?_ hnd
      rw [hrlen]
      split_ifs with hjn <;> omega
    rw [insertChild_of_mem st index c i h]
    dsimp only
    by_cases hit : i = (if clampIndex index st.children.length = st.children.length
        then clampIndex index st.children.length - 1
        else clampIndex index st.children.length)
    · rw [if_pos hit]
      exact hnd
    · rw [if_neg hit]
      by_cases hp : st.hasParent = true
      · rw [if_pos hp]
        exact hmv
      · rw [if_neg hp]
        exact hmv

theorem onChildRemoved_nodup (st : PanelLayout) (c : Nat)
    (hnd : st.children.Nodup) : (onChildRemoved st c).1.children.Nodup := by
  cases h : idxOf c st.children with
  | none =>
    rw [onChildRemoved_of_not_mem st c ((idxOf_eq_none_iff c st.children).mp h)]
    exact hnd
  | some i =>
    rw [onChildRemoved_of_mem st c i h]
    exact nodup_removeAt st.children i hnd

theorem disposeFuel_children_nil (fuel : Nat) : ∀ (st : PanelLayout) (re : Bool),
    st.children.length ≤ fuel → (disposeFuel fuel st re).1.children = [] := by
  induction fuel with
  | zero =>
    intro st re h
    have : st.children = [] := List.length_eq_zero.mp (Nat.le_zero.mp h)
    simpa [disposeFuel] using this
  | succ fuel ih =>
    intro st re h
    by_cases hnil : st.children = []
    · simp [disposeFuel, hnil]
    · rw [disposeFuel, dif_neg hnil]
      dsimp only
      apply ih
      have := disposeStep_length_lt st (st.children.getLast hnil) re hnil
      omega

theorem getLast_not_mem_dropLast (l : List Nat) (h : l ≠ []) (hnd : l.Nodup) :
    l.getLast h ∉ l.dropLast := by
  have hsplit := List.dropLast_append_getLast h
  rw [← hsplit] at hnd
  rcases List.nodup_append.mp hnd with ⟨-, -, hdisj⟩
  intro hmem
  exact hdisj hmem (List.mem_singleton.mpr rfl)

theorem disposeStep_of_not_mem (st : PanelLayout) (last : Nat) (re : Bool)
    (h : last ∉ st.children.dropLast) :
    disposeStep st last re = ({ st with children := st.children.dropLast }, []) := by
  unfold disposeStep
  by_cases hre : re
  · rw [if_pos hre]
    exact onChildRemoved_of_not_mem _ last h
  · rw [if_neg hre]

theorem disposeFuel_disposed (fuel : Nat) : ∀ (st : PanelLayout) (re : Bool),
    st.children.length ≤ fuel → st.children.Nodup →
    (disposeFuel fuel st re).2.1 = st.children.reverse := by
  induction fuel with
  | zero =>
    intro st re h _
    have hnil : st.children = [] := List.length_eq_zero.mp (Nat.le_zero.mp h)
    simp [disposeFuel, hnil]
  | succ fuel ih =>
    intro st re h hnd
    by_cases hnil : st.children = []
    · simp [disposeFuel, hnil]
    · rw [disposeFuel, dif_neg hnil]
      dsimp only
      have hlast := getLast_not_mem_dropLast st.children hnil hnd
      rw [disposeStep_of_not_mem st (st.children.getLast hnil) re hlast]
      have hsplit := List.dropLast_append_getLast hnil
      have hlen : st.children.dropLast.length ≤ fuel := by
        have := st.children.length_dropLast
        have hpos := List.length_pos.mpr hnil
        omega
      have hnd' : st.children.dropLast.Nodup := by
        rw [← hsplit] at hnd
        exact (List.nodup_append.mp hnd).1
      rw [ih _ re hlen hnd']
      conv_rhs => rw [← hsplit]
      rw [List.reverse_append]
      rfl

/-- Claim C2 (amended): for every layout state, index, and child not currently
in the sequence, `insertChild(index, c)` emits the parent assignment, inserts
the child into the sequence at position `j = max(0, min(index | 0, count))`
(so afterwards `indexOf(child) = j` and the count increases by one), and
invokes the `attachChild` hook — never `moveChild` or `detachChild` — exactly
when the layout has a parent container; for an index within the 32-bit range
`[-2^31, 2^31)` this position equals the plain clamp
`min(max(0, index), old count)`. -/
theorem insertChild_new_spec (st : PanelLayout) (index : Int) (c j : Nat)
    (hc : idxOf c st.children = none)
    (hjdef : j = clampIndex index st.children.length) :
    (insertChild st index c).1.children = insertAt st.children j c ∧
    idxOf c (insertChild st index c).1.children = some j ∧
    (insertChild st index c).1.children.length = st.children.length + 1 ∧
    Event.setParent c ∈ (insertChild st index c).2 ∧
    ((Event.attach j c ∈ (insertChild st index c).2) ↔ st.hasParent = true) ∧
    (∀ e ∈ (insertChild st index c).2,
      e.isMoveHook = false ∧ e.isDetachHook = false) ∧
    (-(2 ^ 31) ≤ index → index < 2 ^ 31 →
      (j : Int) = min (max 0 index) (st.children.length : Int)) := by
  subst hjdef
  have hmem : c ∉ st.children := (idxOf_eq_none_iff c st.children).mp hc
  have hjle := clampIndex_le index st.children.length
  have hkey := insertChild_of_not_mem st index c hc
  have hidx := idxOf_insertAt c st.children (clampIndex index st.children.length)
    hmem hjle
  have hlen := length_insertAt c st.children (clampIndex index st.children.length)
    hjle
  rw [hkey]
  dsimp only
  by_cases hp : st.hasParent = true
  · rw [if_pos hp]
    refine ⟨rfl, hidx, hlen, List.mem_cons_self _ _, ?_, ?_, ?_⟩
    · simp [attachChild, hp]
    · intro e he
      rcases List.mem_cons.mp he with rfl | he2
      · exact ⟨rfl, rfl⟩
      · rcases mem_attachChild_trace _ _ c e he2 with rfl | rfl <;> exact ⟨rfl, rfl⟩
    · intro h1 h2
      rw [clampIndex_eq_of_small index st.children.length h1 h2]
  · rw [if_neg hp]
    refine ⟨rfl, hidx, hlen, List.mem_cons_self _ _, ?_, ?_, ?_⟩
    · simp [hp]
    · intro e he
      rcases List.mem_singleton.mp he with rfl
      exact ⟨rfl, rfl⟩
    · intro h1 h2
      rw [clampIndex_eq_of_small index st.children.length h1 h2]

/-- Claim C2, counterexample to the literal statement: with one child `[5]`
and a fresh child `7`, `insertChild(2^31, 7)` places the child at position 0,
while the plain clamp `min(max(0, index), old count)` of the claim predicts
position 1. -/
theorem insertChild_plain_clamp_cex :
    idxOf 7 ((insertChild ⟨[5], [5], true, true⟩ (2 ^ 31) 7).1.children) = some 0 ∧
    min (max 0 ((2 : Int) ^ 31)) ((1 : Nat) : Int) = 1 ∧
    ((0 : Int) ≠ 1) := by
  refine ⟨by decide, by decide, by decide⟩

/-- Claim C3: `insertChild` converts the requested index with JavaScript
`index | 0` before clamping: a fractional index is truncated toward zero
(`3.5 = mkRat 7 2 ↦ 3`, `-3.5 ↦ -3`), and `2^31` wraps to `-2^31`, which then
clamps to `0` — so `insert(2^31, c)` for a fresh child `c` places it at the
front of the sequence, not at the end. -/
theorem insertChild_int32_trunc (st : PanelLayout) (c : Nat)
    (hc : c ∉ st.children) :
    toInt32 (2 ^ 31) = -(2 ^ 31) ∧
    jsTrunc (mkRat 7 2) = 3 ∧
    jsTrunc (mkRat (-7) 2) = -3 ∧
    (insertChildAt st (mkRat (2 ^ 31) 1) c).1.children = c :: st.children := by
  refine ⟨by decide, by decide, by decide, ?_⟩
  have hcn : idxOf c st.children = none := (idxOf_eq_none_iff c st.children).mpr hc
  have hj2 : jsTrunc (mkRat (2 ^ 31) 1) = 2 ^ 31 := by decide
  unfold insertChildAt
  rw [hj2, insertChild_of_not_mem st (2 ^ 31) c hcn]
  dsimp only
  rw [clampIndex_two_pow_31]
  by_cases hp : st.hasParent = true
  · rw [if_pos hp]
    show (insertAt st.children 0 c) = c :: st.children
    exact insertAt_zero st.children c
  · rw [if_neg hp]
    show (insertAt st.children 0 c) = c :: st.children
    exact insertAt_zero st.children c

/-- Claim C4: for a layout with a parent container whose physical node order
currently equals the logical sequence, both `insertChild` (which attaches a
new child's node immediately before the node of the child at `index + 1`, or
at the end, and moves an existing child's node before the node of the child
now at `toIndex + 1`) and the `child-removed` notification preserve the
invariant `nodes = children`; in particular appending three children in the
order 2, 3, 1 to a fresh attached layout yields the physical node order
`[2, 3, 1]`. -/
theorem nodes_match_children (st : PanelLayout) (index : Int) (c c' : Nat)
    (hp : st.hasParent = true) (hsync : st.nodes = st.children)
    (hnd : st.children.Nodup) :
    (insertChild st index c).1.nodes = (insertChild st index c).1.children ∧
    (onChildRemoved st c').1.nodes = (onChildRemoved st c').1.children ∧
    (addChild (addChild (addChild ⟨[], [], true, true⟩ 2).1 3).1 1).1.nodes
      = [2, 3, 1] := by
  refine ⟨?_, ?_, by decide⟩
  · cases h : idxOf c st.children with
    | none =>
      have hmem : c ∉ st.children := (idxOf_eq_none_iff c st.children).mp h
      have hjle := clampIndex_le index st.children.length
      rw [insertChild_of_not_mem st index c h]
      dsimp only
      rw [if_pos hp]
      dsimp only [attachChild]
      rw [hsync, get?_insertAt_succ c st.children _ hjle]
      exact insertBeforeRef_eq st.children st.children c _
        (filter_bne_of_not_mem c st.children hmem) hnd hjle
    | some i =>
      have hget : st.children.get? i = some c := idxOf_get? c st.children i h
      have hiltn : i < st.children.length := idxOf_lt_length c st.children i h
      have hrlen : (removeAt st.children i).length = st.children.length - 1 := by
        have := length_removeAt c st.children i hget
        omega
      have hjle := clampIndex_le index st.children.length
      have htle : (if clampIndex index st.children.length = st.children.length
          then clampIndex index st.children.length - 1
          else clampIndex index st.children.length) ≤
            (removeAt st.children i).length := by
        rw [hrlen]
        split_ifs with hjn <;> omega
      have hme := moveEl_eq st.children i
        (if clampIndex index st.children.length = st.children.length then
          clampIndex index st.children.length - 1
        else clampIndex index st.children.length) c hget
      rw [insertChild_of_mem st index c i h]
      dsimp only
      by_cases hit : i = (if clampIndex index st.children.length =
          st.children.length then clampIndex index st.children.length - 1
          else clampIndex index st.children.length)
      · rw [if_pos hit]
        exact hsync
      · rw [if_neg hit, if_pos hp]
        dsimp only [moveChild]
        rw [hsync, hme, get?_insertAt_succ c (removeAt st.children i) _ htle]
        exact insertBeforeRef_eq st.children (removeAt st.children i) c _
          (filter_bne_eq_removeAt c st.children i hnd h)
          (nodup_removeAt st.children i hnd) htle
  · cases h : idxOf c' st.children with
    | none =>
      rw [onChildRemoved_of_not_mem st c' ((idxOf_eq_none_iff c' st.children).mp h)]
      exact hsync
    | some i =>
      rw [onChildRemoved_of_mem st c' i h]
      dsimp only [detachChild]
      rw [hsync]
      exact filter_bne_eq_removeAt c' st.children i hnd h

/-- Claim C5: `dispose` iterates by popping children from the end of the
sequence until it is empty; afterwards the child count is `0`, and (for a
duplicate-free sequence, the maintained invariant) the children are disposed
exactly once each, in pop order — the reverse of the sequence — whether or
not each child's disposal re-enters the layout with its removal
notification. -/
theorem dispose_spec (st : PanelLayout) (re : Bool) :
    (dispose st re).1.children = [] ∧
    childCount (dispose st re).1 = 0 ∧
    (st.children.Nodup → (dispose st re).2.1 = st.children.reverse) := by
  have h1 := disposeFuel_children_nil st.children.length st re (Nat.le_refl _)
  refine ⟨h1, ?_, ?_⟩
  · show (dispose st re).1.children.length = 0
    rw [show (dispose st re).1.children = [] from h1]
    rfl
  · intro hnd
    exact disposeFuel_disposed st.children.length st re (Nat.le_refl _) hnd

/-- Claim C6: notification contract of the three hooks. `attachChild` sends
`after-attach` if and only if the container is live; `detachChild` sends
`before-detach` if and only if the container is live; `moveChild` sends
exactly one `before-detach` followed by exactly one `after-attach` if and
only if the container is live; and all messages target the operated child
only, never a sibling. -/
theorem lifecycle_msgs (st : PanelLayout) (i f t c : Nat) :
    msgEvents (attachChild st i c).2 =
      (if st.isAttached = true then [Event.afterAttach c] else []) ∧
    msgEvents (detachChild st i c).2 =
      (if st.isAttached = true then [Event.beforeDetach c] else []) ∧
    msgEvents (moveChild st f t c).2 =
      (if st.isAttached = true then [Event.beforeDetach c, Event.afterAttach c]
       else []) := by
  by_cases hA : st.isAttached = true <;>
    simp [attachChild, detachChild, moveChild, msgEvents, Event.isMsg, hA,
      List.filter]

/-- Claim C7: uniqueness invariant — in every state reachable from a fresh
layout by any sequence of `insertChild`/`addChild`, `child-removed`
notifications, and `dispose`, each child widget appears at most once in the
sequence. -/
theorem reachable_nodup (st : PanelLayout) (h : Reachable st) :
    st.children.Nodup := by
  induction h with
  | init hp ia => exact List.nodup_nil
  | insert st idx c _ ih => exact insertChild_nodup st idx c ih
  | remove st c _ ih => exact onChildRemoved_nodup st c ih
  | dispose st re _ ih =>
    rw [show (dispose st re).1.children = [] from
      disposeFuel_children_nil st.children.length st re (Nat.le_refl _)]
    exact List.nodup_nil

/-- Claim C8: the transition present-attached → present-detached is never
taken: `insertChild` never invokes the `detachChild` hook (an existing child
is moved, not detached and re-attached), and when the `child-removed`
notification does invoke `detachChild`, the child has already been removed
from the sequence — so an attached child either stays present (possibly
moved) or becomes absent. -/
theorem detach_only_on_removal (st : PanelLayout) (index : Int) (c c' : Nat)
    (hnd : st.children.Nodup) :
    (∀ e ∈ (insertChild st index c).2, e.isDetachHook = false) ∧
    (∀ i : Nat, Event.detach i c' ∈ (onChildRemoved st c').2 →
      c' ∉ (onChildRemoved st c').1.children) := by
  constructor
  · intro e he
    cases h : idxOf c st.children with
    | none =>
      rw [insertChild_of_not_mem st index c h] at he
      dsimp only at he
      by_cases hp : st.hasParent = true
      · rw [if_pos hp] at he
        rcases List.mem_cons.mp he with rfl | he2
        · rfl
        · rcases mem_attachChild_trace _ _ c e he2 with rfl | rfl <;> rfl
      · rw [if_neg hp] at he
        rcases List.mem_singleton.mp he with rfl
        rfl
    | some i =>
      rw [insertChild_of_mem st index c i h] at he
      dsimp only at he
      by_cases hit : i = (if clampIndex index st.children.length =
          st.children.length then clampIndex index st.children.length - 1
          else clampIndex index st.children.length)
      · rw [if_pos hit] at he
        rcases List.mem_singleton.mp he with rfl
        rfl
      · rw [if_neg hit] at he
        by_cases hp : st.hasParent = true
        · rw [if_pos hp] at he
          rcases List.mem_cons.mp he with rfl | he2
          · rfl
          · rcases mem_moveChild_trace _ i _ c e he2 with rfl | rfl | rfl <;> rfl
        · rw [if_neg hp] at he
          rcases List.mem_singleton.mp he with rfl
          rfl
  · intro i hmem
    cases h : idxOf c' st.children with
    | none =>
      rw [onChildRemoved_of_not_mem st c' ((idxOf_eq_none_iff c' st.children).mp h)]
        at hmem
      simp at hmem
    | some i' =>
      rw [onChildRemoved_of_mem st c' i' h]
      have hget : st.children.get? i' = some c' := idxOf_get? c' st.children i' h
      exact not_mem_removeAt c' st.children i' hnd hget

/-- Claim C9: delivering the `child-removed` notification for a child that is
not in the sequence leaves the state (sequence, node order and count)
unchanged, invokes no `detachChild` hook, and sends no message. -/
theorem childRemoved_absent_spec (st : PanelLayout) (c : Nat)
    (hc : c ∉ st.children) :
    (onChildRemoved st c).1 = st ∧
    (onChildRemoved st c).2 = [] ∧
    childCount (onChildRemoved st c).1 = childCount st := by
  rw [onChildRemoved_of_not_mem st c hc]
  exact ⟨rfl, rfl, rfl⟩

/-- Claim C10: `childAt` is total and pure: for an index outside
`[0, count)` it returns the absent sentinel `none`; for an index inside the
range it returns the child stored at that position of the sequence. -/
theorem childAt_total_spec (st : PanelLayout) (index : Int) :
    ((index < 0 ∨ (st.children.length : Int) ≤ index) → childAt st index = none) ∧
    (0 ≤ index → index < (st.children.length : Int) →
      ∃ c, childAt st index = some c ∧
        st.children.get? index.toNat = some c) := by
  constructor
  · intro h
    unfold childAt
    rcases h with h | h
    · rw [if_neg (not_le.mpr h)]
    · have h0 : (0 : Int) ≤ index := le_trans (by exact_mod_cast Nat.zero_le _) h
      rw [if_pos h0]
      apply List.get?_eq_none.mpr
      omega
  · intro h0 hlt
    unfold childAt
    rw [if_pos h0]
    have hlt' : index.toNat < st.children.length := by omega
    exact ⟨st.children.get ⟨index.toNat, hlt'⟩, List.get?_eq_get hlt',
      List.get?_eq_get hlt'⟩

/-- Witness for `insertChild_existing_spec`: in the layout `[5, 7]`, moving
the existing child `7` (at position 1) to index 0 repositions the sequence. -/
theorem insertChild_existing_spec_witness :
    (insertChild ⟨[5, 7], [5, 7], true, true⟩ 0 7).1.children = moveEl [5, 7] 1 0 :=
  ((insertChild_existing_spec ⟨[5, 7], [5, 7], true, true⟩ 0 7 1 0 0
    (by decide) (by decide) (by decide)).2.2 (by decide)).1

/-- Witness for `insertChild_new_spec`: inserting the fresh child `9` at
index 0 of the layout `[5]` lands it at position 0. -/
theorem insertChild_new_spec_witness :
    idxOf 9 ((insertChild ⟨[5], [5], true, true⟩ 0 9).1.children) = some 0 :=
  (insertChild_new_spec ⟨[5], [5], true, true⟩ 0 9 0 (by decide) (by decide)).2.1

/-- Witness for `insertChild_int32_trunc`: inserting the fresh child `7` at
index `2^31` of the layout `[5]` places it at the front. -/
theorem insertChild_int32_trunc_witness :
    (insertChildAt ⟨[5], [5], true, true⟩ (mkRat (2 ^ 31) 1) 7).1.children = [7, 5] :=
  (insertChild_int32_trunc ⟨[5], [5], true, true⟩ 7 (by decide)).2.2.2

/-- Witness for `nodes_match_children`: appending the fresh child `6` to the
attached layout `[4]` keeps the physical node order equal to the sequence. -/
theorem nodes_match_children_witness :
    (insertChild ⟨[4], [4], true, true⟩ 1 6).1.nodes =
      (insertChild ⟨[4], [4], true, true⟩ 1 6).1.children :=
  (nodes_match_children ⟨[4], [4], true, true⟩ 1 6 4
    (by decide) (by decide) (by decide)).1

/-- Witness for `dispose_spec`: disposing the layout `[1, 2]` with re-entrant
removal notifications disposes the children in pop order `[2, 1]`. -/
theorem dispose_spec_witness :
    (dispose ⟨[1, 2], [1, 2], true, true⟩ true).2.1 = [2, 1] :=
  (dispose_spec ⟨[1, 2], [1, 2], true, true⟩ true).2.2 (by decide)

/-- Witness for `reachable_nodup`: the state reached by one insertion from a
fresh layout has a duplicate-free sequence. -/
theorem reachable_nodup_witness :
    ((insertChild ⟨[], [], true, true⟩ 0 5).1).children.Nodup :=
  reachable_nodup _ (Reachable.insert ⟨[], [], true, true⟩ 0 5
    (Reachable.init true true))

/-- Witness for `detach_only_on_removal`: after the `child-removed`
notification for child `3` of the layout `[3]` fires its detach, `3` is
absent from the sequence. -/
theorem detach_only_on_removal_witness :
    3 ∉ (onChildRemoved ⟨[3], [3], true, true⟩ 3).1.children :=
  (detach_only_on_removal ⟨[3], [3], true, true⟩ 0 3 3 (by decide)).2 0 (by decide)

/-- Witness for `childRemoved_absent_spec`: the `child-removed` notification
for the absent child `9` leaves the layout `[4]` unchanged. -/
theorem childRemoved_absent_spec_witness :
    (onChildRemoved ⟨[4], [4], true, true⟩ 9).1 = ⟨[4], [4], true, true⟩ :=
  (childRemoved_absent_spec ⟨[4], [4], true, true⟩ 9 (by decide)).1

/-- Witness for `childAt_total_spec`: looking up index 5 of the two-child
layout `[4, 6]` yields the absent sentinel. -/
theorem childAt_total_spec_witness :
    childAt ⟨[4, 6], [4, 6], true, true⟩ 5 = none :=
  (childAt_total_spec ⟨[4, 6], [4, 6], true, true⟩ 5).1 (Or.inr (by decide))
